import Mathlib

set_option linter.unusedVariables false

/-! Shallow embedding of the giza-agents repository.

Covered source:
* `giza_actions/agent.py` — `AgentResult._wait_for` (the job polling loop),
  `AgentResult.value` / `AgentResult._verify` (the verification state machine),
  `GizaAgent.predict` (keyword forwarding to `GizaModel.predict`);
* `giza_actions/model.py` — `GizaModel._format_inputs_for_framework` and the
  per-framework payload formatters;
* `giza_actions/integrations/enzyme/fund_calculator.py` — `FundCalculator.get_assets_value`;
* `giza_actions/integrations/enzyme/fund_deployer.py` — `FundDeployer.get_vaults_list`;
* `giza_actions/integrations/enzyme/vault.py` — `Vault.deposit`.

Python integers are modelled as `Nat`/`Int`, floats as exact rationals, the remote
clients and the chain as explicit environments, and raised exceptions as `Except PyError`.
-/

/-- Python exception classes raised by the code under study. -/
inductive PyError
  | valueError
  | timeoutError
  | nameError
  | typeError
  | keyError
  deriving DecidableEq

/-- Status of a remote giza job (`giza.utils.enums.JobStatus`).  `pending` stands for any
status other than `COMPLETED`/`FAILED`, the only two values `_wait_for` distinguishes. -/
inductive JobStatus
  | pending
  | completed
  | failed
  deriving DecidableEq

/-- Possible exits of the `_wait_for` loop: normal return, `raise ValueError`,
`raise TimeoutError`. -/
inductive WaitOutcome
  | ok
  | failedError
  | timeoutError
  deriving DecidableEq

/-- The sequence of job statuses examined by `AgentResult._wait_for`: index `0` is the
status of the `job` argument, index `k + 1` is the status returned by the `k`-th
`client.get` poll. -/
def obs (s0 : JobStatus) (get : Nat → JobStatus) : Nat → JobStatus
  | 0 => s0
  | k + 1 => get k

/-- The `while True` loop of `AgentResult._wait_for` (agent.py lines 275–294), time being
modelled in discrete seconds: iteration `k` examines its status at elapsed time
`k * poll` (every non-terminal iteration ends in `time.sleep(poll_interval)`), so the
`now > wait_timeout` test of the source is `timeout < k * poll`.  The order of the
branches is the source's: `COMPLETED` first, then `FAILED`, then the timeout test, and
only then a `client.get` poll.  `fuel` bounds the recursion depth; `wait_for` below
supplies enough of it (`waitLoop_total`).  The result carries the list of sleep
durations performed, one per poll; `none` means the fuel ran out. -/
def waitLoop (get : Nat → JobStatus) (timeout poll : Nat) :
    Nat → JobStatus → Nat → Option (WaitOutcome × List Nat)
  | 0, _, _ => none
  | fuel + 1, s, k =>
    match s with
    | .completed => some (.ok, [])
    | .failed => some (.failedError, [])
    | .pending =>
      if timeout < k * poll then some (.timeoutError, [])
      else (waitLoop get timeout poll fuel (get k) (k + 1)).map fun r => (r.1, poll :: r.2)

/-- `AgentResult._wait_for(job, client, timeout, poll_interval)`: run the loop from the
status of the job passed in, with fuel `timeout / poll + 2` (shown sufficient whenever
`0 < poll`). -/
def wait_for (s0 : JobStatus) (get : Nat → JobStatus) (timeout poll : Nat) :
    Option (WaitOutcome × List Nat) :=
  waitLoop get timeout poll (timeout / poll + 2) s0 0

/-- Spec wording: after examining observation `j` the loop keeps polling — the status seen
there is non-terminal and the timeout has not yet been exceeded. -/
def specContinues (s0 : JobStatus) (get : Nat → JobStatus) (timeout poll j : Nat) : Prop :=
  obs s0 get j = .pending ∧ j * poll ≤ timeout

/-- Spec wording: the job's status becomes `COMPLETED` — some observation is `COMPLETED`
and every earlier one keeps the loop polling. -/
def specCompletes (s0 : JobStatus) (get : Nat → JobStatus) (timeout poll : Nat) : Prop :=
  ∃ m, obs s0 get m = .completed ∧ ∀ j, j < m → specContinues s0 get timeout poll j

/-- Spec wording: the job's status becomes `FAILED` before the loop has exited. -/
def specFails (s0 : JobStatus) (get : Nat → JobStatus) (timeout poll : Nat) : Prop :=
  ∃ m, obs s0 get m = .failed ∧ ∀ j, j < m → specContinues s0 get timeout poll j

/-- Spec wording: the elapsed time exceeds the timeout while the job is still pending,
before either terminal status has been observed. -/
def specTimesOut (s0 : JobStatus) (get : Nat → JobStatus) (timeout poll : Nat) : Prop :=
  ∃ m, obs s0 get m = .pending ∧ timeout < m * poll ∧
    ∀ j, j < m → specContinues s0 get timeout poll j

theorem waitLoop_total (get : Nat → JobStatus) (timeout poll : Nat) (hp : 0 < poll) :
    ∀ fuel k s, timeout / poll + 1 < fuel + k → 0 < fuel →
      ∃ o ds, waitLoop get timeout poll fuel s k = some (o, ds) ∧
        ds.length ≤ timeout / poll + 1 - k := by
  intro fuel
  induction fuel with
  | zero => intro k s hfk hf; exact absurd hf (by omega)
  | succ n ih =>
    intro k s hfk hf
    cases s with
    | completed => exact ⟨.ok, [], rfl, Nat.zero_le _⟩
    | failed => exact ⟨.failedError, [], rfl, Nat.zero_le _⟩
    | pending =>
      by_cases hto : timeout < k * poll
      · exact ⟨.timeoutError, [], by simp [waitLoop, hto], Nat.zero_le _⟩
      · have hk : k ≤ timeout / poll :=
          (Nat.le_div_iff_mul_le hp).mpr (Nat.not_lt.mp hto)
        obtain ⟨o, ds, hds, hlen⟩ := ih (k + 1) (get k) (by omega) (by omega)
        refine ⟨o, poll :: ds, by simp [waitLoop, hto, hds], ?_⟩
        simp only [List.length_cons]
        omega

theorem waitLoop_sleeps (get : Nat → JobStatus) (timeout poll : Nat) :
    ∀ fuel s k o ds, waitLoop get timeout poll fuel s k = some (o, ds) →
      ∀ d ∈ ds, d = poll := by
  intro fuel
  induction fuel with
  | zero => intro s k o ds h; simp [waitLoop] at h
  | succ n ih =>
    intro s k o ds h
    cases s with
    | completed =>
      simp only [waitLoop, Option.some.injEq, Prod.mk.injEq] at h
      obtain ⟨-, h2⟩ := h
      subst h2; intro d hd; simp at hd
    | failed =>
      simp only [waitLoop, Option.some.injEq, Prod.mk.injEq] at h
      obtain ⟨-, h2⟩ := h
      subst h2; intro d hd; simp at hd
    | pending =>
      by_cases hto : timeout < k * poll
      · simp only [waitLoop, if_pos hto, Option.some.injEq, Prod.mk.injEq] at h
        obtain ⟨-, h2⟩ := h
        subst h2; intro d hd; simp at hd
      · simp only [waitLoop, if_neg hto, Option.map_eq_some'] at h
        obtain ⟨⟨o', ds'⟩, hr, hre⟩ := h
        simp only [Prod.mk.injEq] at hre
        obtain ⟨-, h2⟩ := hre
        subst h2
        intro d hd
        rcases List.mem_cons.mp hd with h1 | h2
        · exact h1
        · exact ih (get k) (k + 1) o' ds' hr d h2

theorem wait_for_total (s0 : JobStatus) (get : Nat → JobStatus) (timeout poll : Nat)
    (hp : 0 < poll) :
    ∃ o ds, wait_for s0 get timeout poll = some (o, ds) ∧
      ds.length ≤ timeout / poll + 1 := by
  obtain ⟨o, ds, h, hlen⟩ :=
    waitLoop_total get timeout poll hp (timeout / poll + 2) 0 s0
      (by simp) (Nat.succ_pos _)
  exact ⟨o, ds, h, by simpa using hlen⟩

/-- Claim C2: the polling loop of `AgentResult._wait_for` is bounded — for every timeout
and positive poll interval it terminates with one of the three exits, it performs at
most `timeout / poll_interval + 1` polls (one sleep per poll), and every sleep between
successive polls lasts exactly `poll_interval`, never growing or shrinking. -/
theorem wait_for_loop_bounded (s0 : JobStatus) (get : Nat → JobStatus) (timeout poll : Nat)
    (hp : 0 < poll) :
    ∃ o ds, wait_for s0 get timeout poll = some (o, ds) ∧
      ds.length ≤ timeout / poll + 1 ∧ ∀ d ∈ ds, d = poll := by
  obtain ⟨o, ds, h, hlen⟩ := wait_for_total s0 get timeout poll hp
  exact ⟨o, ds, h, hlen, waitLoop_sleeps get timeout poll _ _ _ _ _ h⟩

theorem wait_for_loop_bounded_witness :
    0 < 10 ∧ ∃ o ds, wait_for .pending (fun _ => .completed) 600 10 = some (o, ds) ∧
      ds.length ≤ 600 / 10 + 1 ∧ ∀ d ∈ ds, d = 10 :=
  ⟨by decide, wait_for_loop_bounded .pending (fun _ => .completed) 600 10 (by decide)⟩

theorem waitLoop_of_completed (s0 : JobStatus) (get : Nat → JobStatus) (timeout poll : Nat) :
    ∀ fuel k m, k ≤ m → m - k < fuel → obs s0 get m = .completed →
      (∀ j, k ≤ j → j < m → specContinues s0 get timeout poll j) →
      ∃ ds, waitLoop get timeout poll fuel (obs s0 get k) k = some (.ok, ds) := by
  intro fuel
  induction fuel with
  | zero => intro k m h1 h2 _ _; omega
  | succ n ih =>
    intro k m hkm hfuel hm hcont
    rcases Nat.eq_or_lt_of_le hkm with heq | hlt
    · subst heq
      rw [hm]
      exact ⟨[], rfl⟩
    · obtain ⟨hkp, hkt⟩ := hcont k le_rfl hlt
      rw [hkp]
      have hnot : ¬ timeout < k * poll := Nat.not_lt.mpr hkt
      obtain ⟨ds, hds⟩ :=
        ih (k + 1) m hlt (by omega) hm (fun j hj1 hj2 => hcont j (by omega) hj2)
      have hg : get k = obs s0 get (k + 1) := rfl
      refine ⟨poll :: ds, ?_⟩
      simp only [waitLoop, if_neg hnot, hg, hds, Option.map_some']

theorem waitLoop_of_failed (s0 : JobStatus) (get : Nat → JobStatus) (timeout poll : Nat) :
    ∀ fuel k m, k ≤ m → m - k < fuel → obs s0 get m = .failed →
      (∀ j, k ≤ j → j < m → specContinues s0 get timeout poll j) →
      ∃ ds, waitLoop get timeout poll fuel (obs s0 get k) k = some (.failedError, ds) := by
  intro fuel
  induction fuel with
  | zero => intro k m h1 h2 _ _; omega
  | succ n ih =>
    intro k m hkm hfuel hm hcont
    rcases Nat.eq_or_lt_of_le hkm with heq | hlt
    · subst heq
      rw [hm]
      exact ⟨[], rfl⟩
    · obtain ⟨hkp, hkt⟩ := hcont k le_rfl hlt
      rw [hkp]
      have hnot : ¬ timeout < k * poll := Nat.not_lt.mpr hkt
      obtain ⟨ds, hds⟩ :=
        ih (k + 1) m hlt (by omega) hm (fun j hj1 hj2 => hcont j (by omega) hj2)
      have hg : get k = obs s0 get (k + 1) := rfl
      refine ⟨poll :: ds, ?_⟩
      simp only [waitLoop, if_neg hnot, hg, hds, Option.map_some']

theorem waitLoop_of_timeout (s0 : JobStatus) (get : Nat → JobStatus) (timeout poll : Nat) :
    ∀ fuel k m, k ≤ m → m - k < fuel → obs s0 get m = .pending → timeout < m * poll →
      (∀ j, k ≤ j → j < m → specContinues s0 get timeout poll j) →
      ∃ ds, waitLoop get timeout poll fuel (obs s0 get k) k = some (.timeoutError, ds) := by
  intro fuel
  induction fuel with
  | zero => intro k m h1 h2 _ _ _; omega
  | succ n ih =>
    intro k m hkm hfuel hm hmt hcont
    rcases Nat.eq_or_lt_of_le hkm with heq | hlt
    · subst heq
      rw [hm]
      exact ⟨[], by simp [waitLoop, hmt]⟩
    · obtain ⟨hkp, hkt⟩ := hcont k le_rfl hlt
      rw [hkp]
      have hnot : ¬ timeout < k * poll := Nat.not_lt.mpr hkt
      obtain ⟨ds, hds⟩ :=
        ih (k + 1) m hlt (by omega) hm hmt (fun j hj1 hj2 => hcont j (by omega) hj2)
      have hg : get k = obs s0 get (k + 1) := rfl
      refine ⟨poll :: ds, ?_⟩
      simp only [waitLoop, if_neg hnot, hg, hds, Option.map_some']

theorem specContinues_bound (s0 : JobStatus) (get : Nat → JobStatus) (timeout poll : Nat)
    (hp : 0 < poll) (m : Nat)
    (h : ∀ j, j < m → specContinues s0 get timeout poll j) :
    m ≤ timeout / poll + 1 := by
  by_contra hm
  push_neg at hm
  have hle := (h (timeout / poll + 1) (by omega)).2
  have := (Nat.le_div_iff_mul_le hp).mpr hle
  omega

theorem wait_spec_exhaustive (s0 : JobStatus) (get : Nat → JobStatus) (timeout poll : Nat)
    (hp : 0 < poll) :
    specCompletes s0 get timeout poll ∨ specFails s0 get timeout poll ∨
      specTimesOut s0 get timeout poll := by
  have hex : ∃ i, ¬ (obs s0 get i = .pending ∧ i * poll ≤ timeout) := by
    refine ⟨timeout / poll + 1, ?_⟩
    rintro ⟨-, hle⟩
    have := (Nat.le_div_iff_mul_le hp).mpr hle
    omega
  have hPm := Nat.find_spec hex
  have hmin : ∀ j, j < Nat.find hex → specContinues s0 get timeout poll j := by
    intro j hj
    exact of_not_not (Nat.find_min hex hj)
  cases hs : obs s0 get (Nat.find hex) with
  | completed => exact Or.inl ⟨Nat.find hex, hs, hmin⟩
  | failed => exact Or.inr (Or.inl ⟨Nat.find hex, hs, hmin⟩)
  | pending =>
    have hmt : timeout < Nat.find hex * poll := by
      by_contra hle
      exact hPm ⟨hs, Nat.not_lt.mp hle⟩
    exact Or.inr (Or.inr ⟨Nat.find hex, hs, hmt, hmin⟩)

theorem spec_not_completes_and_fails (s0 : JobStatus) (get : Nat → JobStatus)
    (timeout poll : Nat) :
    ¬ (specCompletes s0 get timeout poll ∧ specFails s0 get timeout poll) := by
  rintro ⟨⟨m1, h1, c1⟩, ⟨m2, h2, c2⟩⟩
  rcases Nat.lt_trichotomy m1 m2 with h | h | h
  · have := (c2 m1 h).1
    rw [h1] at this
    exact JobStatus.noConfusion this
  · subst h
    rw [h1] at h2
    exact JobStatus.noConfusion h2
  · have := (c1 m2 h).1
    rw [h2] at this
    exact JobStatus.noConfusion this

theorem spec_not_completes_and_timesOut (s0 : JobStatus) (get : Nat → JobStatus)
    (timeout poll : Nat) :
    ¬ (specCompletes s0 get timeout poll ∧ specTimesOut s0 get timeout poll) := by
  rintro ⟨⟨m1, h1, c1⟩, ⟨m2, h2, hmt, c2⟩⟩
  rcases Nat.lt_trichotomy m1 m2 with h | h | h
  · have := (c2 m1 h).1
    rw [h1] at this
    exact JobStatus.noConfusion this
  · subst h
    rw [h1] at h2
    exact JobStatus.noConfusion h2
  · have := (c1 m2 h).2
    omega

theorem spec_not_fails_and_timesOut (s0 : JobStatus) (get : Nat → JobStatus)
    (timeout poll : Nat) :
    ¬ (specFails s0 get timeout poll ∧ specTimesOut s0 get timeout poll) := by
  rintro ⟨⟨m1, h1, c1⟩, ⟨m2, h2, hmt, c2⟩⟩
  rcases Nat.lt_trichotomy m1 m2 with h | h | h
  · have := (c2 m1 h).1
    rw [h1] at this
    exact JobStatus.noConfusion this
  · subst h
    rw [h1] at h2
    exact JobStatus.noConfusion h2
  · have := (c1 m2 h).2
    omega

theorem wait_for_of_completes (s0 : JobStatus) (get : Nat → JobStatus) (timeout poll : Nat)
    (hp : 0 < poll) (h : specCompletes s0 get timeout poll) :
    ∃ ds, wait_for s0 get timeout poll = some (.ok, ds) := by
  obtain ⟨m, hm, hc⟩ := h
  have hb : m ≤ timeout / poll + 1 :=
    specContinues_bound s0 get timeout poll hp m hc
  exact waitLoop_of_completed s0 get timeout poll (timeout / poll + 2) 0 m (Nat.zero_le m)
    (by omega) hm (fun j _ hj => hc j hj)

theorem wait_for_of_fails (s0 : JobStatus) (get : Nat → JobStatus) (timeout poll : Nat)
    (hp : 0 < poll) (h : specFails s0 get timeout poll) :
    ∃ ds, wait_for s0 get timeout poll = some (.failedError, ds) := by
  obtain ⟨m, hm, hc⟩ := h
  have hb : m ≤ timeout / poll + 1 :=
    specContinues_bound s0 get timeout poll hp m hc
  exact waitLoop_of_failed s0 get timeout poll (timeout / poll + 2) 0 m (Nat.zero_le m)
    (by omega) hm (fun j _ hj => hc j hj)

theorem wait_for_of_timesOut (s0 : JobStatus) (get : Nat → JobStatus) (timeout poll : Nat)
    (hp : 0 < poll) (h : specTimesOut s0 get timeout poll) :
    ∃ ds, wait_for s0 get timeout poll = some (.timeoutError, ds) := by
  obtain ⟨m, hm, hmt, hc⟩ := h
  have hb : m ≤ timeout / poll + 1 :=
    specContinues_bound s0 get timeout poll hp m hc
  exact waitLoop_of_timeout s0 get timeout poll (timeout / poll + 2) 0 m (Nat.zero_le m)
    (by omega) hm hmt (fun j _ hj => hc j hj)

/-- Claim C1: for every job polled by `AgentResult._wait_for` (with a positive poll
interval), the call returns normally exactly when the observed job status becomes
`COMPLETED`, raises `ValueError` exactly when it becomes `FAILED`, raises `TimeoutError`
exactly when the elapsed time exceeds the timeout while the job is still pending — and no
other outcome (in particular no divergence) is possible. -/
theorem wait_for_outcome_characterization (s0 : JobStatus) (get : Nat → JobStatus)
    (timeout poll : Nat) (hp : 0 < poll) :
    ((∃ ds, wait_for s0 get timeout poll = some (.ok, ds)) ↔
        specCompletes s0 get timeout poll)
    ∧ ((∃ ds, wait_for s0 get timeout poll = some (.failedError, ds)) ↔
        specFails s0 get timeout poll)
    ∧ ((∃ ds, wait_for s0 get timeout poll = some (.timeoutError, ds)) ↔
        specTimesOut s0 get timeout poll)
    ∧ wait_for s0 get timeout poll ≠ none := by
  refine ⟨⟨?_, wait_for_of_completes s0 get timeout poll hp⟩,
    ⟨?_, wait_for_of_fails s0 get timeout poll hp⟩,
    ⟨?_, wait_for_of_timesOut s0 get timeout poll hp⟩, ?_⟩
  · rintro ⟨ds, hds⟩
    rcases wait_spec_exhaustive s0 get timeout poll hp with h | h | h
    · exact h
    · obtain ⟨ds', hds'⟩ := wait_for_of_fails s0 get timeout poll hp h
      rw [hds] at hds'
      simp at hds'
    · obtain ⟨ds', hds'⟩ := wait_for_of_timesOut s0 get timeout poll hp h
      rw [hds] at hds'
      simp at hds'
  · rintro ⟨ds, hds⟩
    rcases wait_spec_exhaustive s0 get timeout poll hp with h | h | h
    · obtain ⟨ds', hds'⟩ := wait_for_of_completes s0 get timeout poll hp h
      rw [hds] at hds'
      simp at hds'
    · exact h
    · obtain ⟨ds', hds'⟩ := wait_for_of_timesOut s0 get timeout poll hp h
      rw [hds] at hds'
      simp at hds'
  · rintro ⟨ds, hds⟩
    rcases wait_spec_exhaustive s0 get timeout poll hp with h | h | h
    · obtain ⟨ds', hds'⟩ := wait_for_of_completes s0 get timeout poll hp h
      rw [hds] at hds'
      simp at hds'
    · obtain ⟨ds', hds'⟩ := wait_for_of_fails s0 get timeout poll hp h
      rw [hds] at hds'
      simp at hds'
    · exact h
  · obtain ⟨o, ds, h, -⟩ := wait_for_total s0 get timeout poll hp
    rw [h]
    exact Option.some_ne_none _

theorem wait_for_outcome_characterization_witness :
    0 < 10 ∧
    (((∃ ds, wait_for .pending (fun _ => .failed) 600 10 = some (.ok, ds)) ↔
        specCompletes .pending (fun _ => .failed) 600 10)
    ∧ ((∃ ds, wait_for .pending (fun _ => .failed) 600 10 = some (.failedError, ds)) ↔
        specFails .pending (fun _ => .failed) 600 10)
    ∧ ((∃ ds, wait_for .pending (fun _ => .failed) 600 10 = some (.timeoutError, ds)) ↔
        specTimesOut .pending (fun _ => .failed) 600 10)
    ∧ wait_for .pending (fun _ => .failed) 600 10 ≠ none) :=
  ⟨by decide,
    wait_for_outcome_characterization .pending (fun _ => .failed) 600 10 (by decide)⟩

/-- A giza proof (`giza.schemas.proofs.Proof`): only the `id` field is read by the code. -/
structure GizaProof where
  id : Nat
  deriving DecidableEq

/-- A giza job (`giza.schemas.jobs.Job`): the fields read by `AgentResult`. -/
structure Job where
  id : Nat
  status : JobStatus
  request_id : String
  deriving DecidableEq

/-- The mutable fields of `AgentResult` (agent.py lines 171–183); source names carry a
leading underscore (`_value`, `_proof_job`, …). -/
structure AgentResultState where
  value : Int
  verified : Bool
  proof_job : Job
  verify_job : Option Job
  proof : Option GizaProof
  timeout : Nat
  poll_interval : Nat
  deriving DecidableEq

/-- The remote services seen by `AgentResult._verify`: the status streams returned by
`JobsClient.get` while waiting for the proof job and for the verify job, the proof
returned by `EndpointsClient.get_proof`, and the job returned by `JobsClient.create`
for a `JobCreate` with the given `proof_id`. -/
structure AgentEnv where
  proof_polls : Nat → JobStatus
  verify_polls : Nat → JobStatus
  get_proof : String → GizaProof
  create_verify_job : Nat → Job

/-- The remote interactions performed by one access to `AgentResult.value`, in order. -/
inductive RemoteCall
  | wait_proof_job
  | fetch_proof
  | create_verify
  | wait_verify_job
  deriving DecidableEq

/-- The `AgentResult.value` property (agent.py lines 199–207) together with the `_verify`
chain it triggers (lines 209–227): if `verified` is set, return the stored value at once;
otherwise `_wait_for_proof` (a `_wait_for` on the proof job, then `get_proof`), then
`_start_verify_job`, then `_wait_for_verify`, and only then `verified = True`.  A
`failedError`/`timeoutError` exit of `_wait_for` becomes the corresponding raised
exception; the trace lists the remote interactions performed; `none` means a `_wait_for`
ran out of fuel (impossible for a positive poll interval). -/
def agent_value (env : AgentEnv) (st : AgentResultState) :
    Option (Except PyError (Int × AgentResultState) × List RemoteCall) :=
  if st.verified then some (.ok (st.value, st), [])
  else
    match wait_for st.proof_job.status env.proof_polls st.timeout st.poll_interval with
    | none => none
    | some (.failedError, _) => some (.error .valueError, [.wait_proof_job])
    | some (.timeoutError, _) => some (.error .timeoutError, [.wait_proof_job])
    | some (.ok, _) =>
      let pf := env.get_proof st.proof_job.request_id
      let st1 := { st with proof := some pf }
      let vjob := env.create_verify_job pf.id
      let st2 := { st1 with verify_job := some vjob }
      match wait_for vjob.status env.verify_polls st2.timeout st2.poll_interval with
      | none => none
      | some (.failedError, _) =>
        some (.error .valueError,
          [.wait_proof_job, .fetch_proof, .create_verify, .wait_verify_job])
      | some (.timeoutError, _) =>
        some (.error .timeoutError,
          [.wait_proof_job, .fetch_proof, .create_verify, .wait_verify_job])
      | some (.ok, _) =>
        some (.ok (st2.value, { st2 with verified := true }),
          [.wait_proof_job, .fetch_proof, .create_verify, .wait_verify_job])

/-- Claim C3: when `verified` is set, `AgentResult.value` returns the stored value at once
with no remote interaction; a successful value access always ends in a verified state
holding the stored inference value, and every later access is then immediate; when
`verified` is unset, a successful access performs exactly the wait-proof, fetch-proof,
create-verify, wait-verify sequence — the value is never produced before verification
has succeeded. -/
theorem agent_value_verified_flow (env : AgentEnv) (st : AgentResultState)
    (hp : 0 < st.poll_interval) :
    (st.verified = true → agent_value env st = some (.ok (st.value, st), []))
    ∧ (∀ v st' tr, agent_value env st = some (.ok (v, st'), tr) →
        st'.verified = true ∧ v = st.value ∧
          agent_value env st' = some (.ok (v, st'), []))
    ∧ (st.verified = false → ∀ v st' tr, agent_value env st = some (.ok (v, st'), tr) →
        tr = [.wait_proof_job, .fetch_proof, .create_verify, .wait_verify_job])
    ∧ agent_value env st ≠ none := by
  by_cases hv : st.verified
  · refine ⟨fun _ => by simp [agent_value, hv], ?_, fun hfalse => absurd hv (by simp [hfalse]), ?_⟩
    · intro v st' tr h
      simp only [agent_value, hv, if_true, Option.some.injEq, Prod.mk.injEq] at h
      obtain ⟨he, -⟩ := h
      obtain ⟨h1, h2⟩ := Except.ok.inj he |> Prod.mk.inj
      subst h1; subst h2
      exact ⟨hv, rfl, by simp [agent_value, hv]⟩
    · simp [agent_value, hv]
  · have hv' : st.verified = false := by simpa using hv
    obtain ⟨o1, ds1, hw1, -⟩ :=
      wait_for_total st.proof_job.status env.proof_polls st.timeout st.poll_interval hp
    refine ⟨fun htrue => absurd htrue (by simp [hv']), ?_, ?_, ?_⟩
    · intro v st' tr h
      cases o1 with
      | failedError => simp [agent_value, hv', hw1] at h
      | timeoutError => simp [agent_value, hv', hw1] at h
      | ok =>
        obtain ⟨o2, ds2, hw2, -⟩ :=
          wait_for_total
            (env.create_verify_job (env.get_proof st.proof_job.request_id).id).status
            env.verify_polls st.timeout st.poll_interval hp
        cases o2 with
        | failedError => simp [agent_value, hv', hw1, hw2] at h
        | timeoutError => simp [agent_value, hv', hw1, hw2] at h
        | ok =>
          simp only [agent_value, hv', if_false, Bool.false_eq_true, ite_false, hw1, hw2,
            Option.some.injEq, Prod.mk.injEq] at h
          obtain ⟨he, -⟩ := h
          obtain ⟨h1, h2⟩ := Except.ok.inj he |> Prod.mk.inj
          subst h1
          subst h2
          refine ⟨rfl, rfl, by simp [agent_value]⟩
    · intro _ v st' tr h
      cases o1 with
      | failedError => simp [agent_value, hv', hw1] at h
      | timeoutError => simp [agent_value, hv', hw1] at h
      | ok =>
        obtain ⟨o2, ds2, hw2, -⟩ :=
          wait_for_total
            (env.create_verify_job (env.get_proof st.proof_job.request_id).id).status
            env.verify_polls st.timeout st.poll_interval hp
        cases o2 with
        | failedError => simp [agent_value, hv', hw1, hw2] at h
        | timeoutError => simp [agent_value, hv', hw1, hw2] at h
        | ok =>
          simp only [agent_value, hv', if_false, Bool.false_eq_true, ite_false, hw1, hw2,
            Option.some.injEq, Prod.mk.injEq] at h
          exact h.2.symm
    · cases o1 with
      | failedError => simp [agent_value, hv', hw1]
      | timeoutError => simp [agent_value, hv', hw1]
      | ok =>
        obtain ⟨o2, ds2, hw2, -⟩ :=
          wait_for_total
            (env.create_verify_job (env.get_proof st.proof_job.request_id).id).status
            env.verify_polls st.timeout st.poll_interval hp
        cases o2 <;> simp [agent_value, hv', hw1, hw2]

/-- A concrete remote environment in which both jobs complete at once. -/
def agentEnv_example : AgentEnv where
  proof_polls := fun _ => .completed
  verify_polls := fun _ => .completed
  get_proof := fun _ => ⟨7⟩
  create_verify_job := fun i => ⟨i, .completed, "req-1"⟩

/-- A concrete unverified `AgentResult` state. -/
def agentResult_example : AgentResultState where
  value := 42
  verified := false
  proof_job := ⟨1, .completed, "req-1"⟩
  verify_job := none
  proof := none
  timeout := 5
  poll_interval := 1

theorem agent_value_verified_flow_witness :
    0 < agentResult_example.poll_interval ∧
    ((agentResult_example.verified = true →
        agent_value agentEnv_example agentResult_example =
          some (.ok (agentResult_example.value, agentResult_example), []))
    ∧ (∀ v st' tr, agent_value agentEnv_example agentResult_example =
          some (.ok (v, st'), tr) →
        st'.verified = true ∧ v = agentResult_example.value ∧
          agent_value agentEnv_example st' = some (.ok (v, st'), []))
    ∧ (agentResult_example.verified = false →
        ∀ v st' tr, agent_value agentEnv_example agentResult_example =
            some (.ok (v, st'), tr) →
          tr = [.wait_proof_job, .fetch_proof, .create_verify, .wait_verify_job])
    ∧ agent_value agentEnv_example agentResult_example ≠ none) :=
  ⟨by decide, agent_value_verified_flow agentEnv_example agentResult_example (by decide)⟩

/-- The parameter names accepted by `GizaModel.predict` (model.py lines 150–158); the
method declares no `**kwargs`. -/
def gizaModel_predict_params : List String :=
  ["input_file", "input_feed", "verifiable", "fp_impl", "output_dtype", "job_size"]

/-- The keyword arguments `GizaAgent.predict` passes to `super().predict` (agent.py lines
122–129). -/
def gizaAgent_predict_call_kwargs : List String :=
  ["input_file", "input_feed", "verifiable", "fp_impl", "custom_output_dtype", "job_size"]

/-- Python call binding: a call with only keyword arguments binds iff every keyword names a
declared parameter; otherwise the call raises `TypeError` before the callee's body runs. -/
def kwargs_bind (params kwargs : List String) : Bool :=
  kwargs.all fun k => params.contains k

/-- The result `GizaAgent.predict` is documented to produce (agent.py lines 105–146):
an `AgentResult` for a verifiable run, the bare inference output otherwise. -/
inductive PredictResult
  | agentResult (pred : Int) (request_id : String)
  | bare (pred : Int)
  deriving DecidableEq

/-- `GizaAgent.predict` (agent.py lines 105–146): it first calls `super().predict` with
the keywords `gizaAgent_predict_call_kwargs`; if that call binds, the source would
dispatch on `verifiable` (`AgentResult` wrapping the prediction and request id, or the
bare result); if the binding fails, `TypeError` is raised first. -/
def gizaAgent_predict (verifiable : Bool) (model_output : Int) (request_id : String) :
    Except PyError PredictResult :=
  if kwargs_bind gizaModel_predict_params gizaAgent_predict_call_kwargs then
    if verifiable then .ok (.agentResult model_output request_id)
    else .ok (.bare model_output)
  else .error .typeError

/-- Claim C4 (code-bug evidence): every call of `GizaAgent.predict` raises `TypeError` —
it forwards the keyword `custom_output_dtype`, which `GizaModel.predict` does not accept
(its parameter is `output_dtype` and it has no `**kwargs`) — so neither an `AgentResult`
nor a bare inference result is ever returned, for either value of `verifiable`. -/
theorem gizaAgent_predict_always_typeError (verifiable : Bool) (out : Int) (rid : String) :
    gizaAgent_predict verifiable out rid = .error .typeError ∧
      kwargs_bind gizaModel_predict_params gizaAgent_predict_call_kwargs = false := by
  constructor
  · cases verifiable <;> rfl
  · rfl

/-- The model-framework enum (`giza.utils.enums.Framework`).  `OTHER` stands for any
member that is neither `CAIRO` nor `EZKL`; `_format_inputs_for_framework` only ever
distinguishes those two, sending everything else to its wildcard case. -/
inductive Framework
  | CAIRO
  | EZKL
  | OTHER
  deriving DecidableEq

/-- An osiris tensor as built by `create_tensor_from_array(value, fp_impl)`: it records
the source numpy array (an opaque id) and the fixed-point implementation used. -/
structure Tensor where
  arr : Nat
  fp_impl : String
  deriving DecidableEq

/-- `osiris.app.create_tensor_from_array` (external), modelled as recording its
arguments. -/
def create_tensor_from_array (a : Nat) (fp : String) : Tensor := ⟨a, fp⟩

/-- One element of the `serialized` list built by `_format_inputs_for_cairo`; the source
joins these with spaces into the `args` string. -/
inductive SerItem
  | fromFile (file : String) (fp : String)
  | fromTensor (t : Tensor)
  deriving DecidableEq

/-- `osiris.app.serializer` (external): serializes one tensor. -/
def serializer (t : Tensor) : SerItem := .fromTensor t

/-- `osiris.app.serialize(input_file, fp_impl)` (external): modelled as an abstract
serialized-item list recording its two arguments. -/
def serialize (file fp : String) : List SerItem := [.fromFile file fp]

/-- A value of the `input_feed` dict in the Cairo path: either a numpy ndarray (opaque
id) or any other Python value (opaque id). -/
inductive PyVal
  | ndarray (a : Nat)
  | other (o : Nat)
  deriving DecidableEq

/-- The payload built by `_format_inputs_for_cairo`; `args` is kept as the ordered
`serialized` list (the source joins it with `" "`). -/
structure CairoPayload where
  job_size : String
  args : List SerItem
  deriving DecidableEq

/-- The `for name in input_feed` loop of `_format_inputs_for_cairo` (model.py lines
268–275).  The first argument is the Python local variable `tensor`: it is unbound
(`none`) until the first ndarray iteration, and the non-ndarray branch appends
`serializer(tensor)` — the stale tensor of a previous ndarray iteration — raising
`NameError` (unbound local) when no ndarray has been seen yet. -/
def cairo_feed_loop (fp : String) : Option Tensor → List (String × PyVal) →
    Except PyError (List SerItem)
  | _, [] => .ok []
  | _, (_, .ndarray a) :: rest =>
    let tensor := create_tensor_from_array a fp
    (cairo_feed_loop fp (some tensor) rest).map fun l => serializer tensor :: l
  | none, (_, .other _) :: _ => .error .nameError
  | some tensor, (_, .other _) :: rest =>
    (cairo_feed_loop fp (some tensor) rest).map fun l => serializer tensor :: l

/-- `GizaModel._format_inputs_for_cairo` (model.py lines 245–277): an optional
`input_file` contributes `serialize(input_file, fp_impl)`, then the `input_feed` loop
appends its items. -/
def format_inputs_for_cairo (input_file : Option String)
    (input_feed : Option (List (String × PyVal))) (fp_impl job_size : String) :
    Except PyError CairoPayload :=
  let serialized := match input_file with
    | some f => serialize f fp_impl
    | none => []
  match input_feed with
  | none => .ok ⟨job_size, serialized⟩
  | some feed =>
    (cairo_feed_loop fp_impl none feed).map fun l => ⟨job_size, serialized ++ l⟩

/-- The data placed in an EZKL payload's `input_data` list. -/
inductive EzklData
  | fromFileFlat (file : String)
  | raw (v : Nat)
  | flattened (a : Nat)
  deriving DecidableEq

/-- The shapes of `input_feed` distinguished by the `match` in
`_format_inputs_for_ezkl` (model.py lines 294–305). -/
inductive EzklFeed
  | dict (entries : List (String × Nat))
  | list (v : Nat)
  | ndarray (a : Nat)
  | other (o : Nat)
  deriving DecidableEq

/-- The payload built by `_format_inputs_for_ezkl`:
`{"input_data": [data], "job_size": job_size}`. -/
structure EzklPayload where
  input_data : List EzklData
  job_size : String
  deriving DecidableEq

/-- Python dict lookup `input_feed["input_data"]`; `none` is a raised `KeyError`. -/
def dict_lookup (entries : List (String × Nat)) (k : String) : Option Nat :=
  (entries.find? fun e => e.1 == k).map Prod.snd

/-- `GizaModel._format_inputs_for_ezkl` (model.py lines 279–306).  Its signature has no
`fp_impl` parameter: the `fp_impl=` keyword of the caller lands in its `**kwargs` and is
ignored, so this model takes no fixed-point argument at all.  When both inputs are
`None`, the final `return` reads the unbound local `data` (`NameError`). -/
def format_inputs_for_ezkl (input_file : Option String) (input_feed : Option EzklFeed)
    (job_size : String) : Except PyError EzklPayload :=
  match input_file with
  | some f => .ok ⟨[.fromFileFlat f], job_size⟩
  | none =>
    match input_feed with
    | some (.dict entries) =>
      match dict_lookup entries "input_data" with
      | some v => .ok ⟨[.raw v], job_size⟩
      | none => .error .keyError
    | some (.list v) => .ok ⟨[.raw v], job_size⟩
    | some (.ndarray a) => .ok ⟨[.flattened a], job_size⟩
    | some (.other _) => .error .valueError
    | none => .error .nameError

/-- A payload returned by `_format_inputs_for_framework`, from either branch. -/
inductive FrameworkPayload
  | cairo (p : CairoPayload)
  | ezkl (p : EzklPayload)
  deriving DecidableEq

/-- `GizaModel._format_inputs_for_framework` (model.py lines 228–243): it forwards its
`*args`/`**kwargs` unchanged to the formatter selected by `self.framework`, so it is
modelled over the two formatter results with those arguments already applied; any
framework other than `CAIRO`/`EZKL` hits the wildcard case and raises `ValueError`. -/
def format_inputs_for_framework {α : Type} (fw : Framework)
    (cairo_fmt ezkl_fmt : Except PyError α) : Except PyError α :=
  match fw with
  | .CAIRO => cairo_fmt
  | .EZKL => ezkl_fmt
  | .OTHER => .error .valueError

theorem cairo_loop_items (fp : String) :
    ∀ (feed : List (String × PyVal)) (t? : Option Tensor) (l : List SerItem),
      cairo_feed_loop fp t? feed = .ok l →
      ∀ item ∈ l, (∃ t, t? = some t ∧ item = serializer t) ∨
        ∃ a, (∃ n, (n, PyVal.ndarray a) ∈ feed) ∧
          item = serializer (create_tensor_from_array a fp) := by
  intro feed
  induction feed with
  | nil =>
    intro t? l h item hitem
    simp only [cairo_feed_loop, Except.ok.injEq] at h
    subst h
    simp at hitem
  | cons e rest ih =>
    intro t? l h item hitem
    obtain ⟨name, v⟩ := e
    cases v with
    | ndarray a =>
      simp only [cairo_feed_loop] at h
      cases hrec : cairo_feed_loop fp (some (create_tensor_from_array a fp)) rest with
      | error err => rw [hrec] at h; simp [Except.map] at h
      | ok l' =>
        rw [hrec] at h
        simp only [Except.map, Except.ok.injEq] at h
        subst h
        rcases List.mem_cons.mp hitem with hhd | htl
        · exact Or.inr ⟨a, ⟨name, List.mem_cons_self _ _⟩, hhd⟩
        · rcases ih (some (create_tensor_from_array a fp)) l' hrec item htl with
            ⟨t, ht, hi⟩ | ⟨a', ⟨n', hn'⟩, hi⟩
          · obtain rfl : create_tensor_from_array a fp = t := Option.some.inj ht
            exact Or.inr ⟨a, ⟨name, List.mem_cons_self _ _⟩, hi⟩
          · exact Or.inr ⟨a', ⟨n', List.mem_cons_of_mem _ hn'⟩, hi⟩
    | other o =>
      cases t? with
      | none =>
        simp only [cairo_feed_loop] at h
        exact Except.noConfusion h
      | some t =>
        simp only [cairo_feed_loop] at h
        cases hrec : cairo_feed_loop fp (some t) rest with
        | error err => rw [hrec] at h; simp [Except.map] at h
        | ok l' =>
          rw [hrec] at h
          simp only [Except.map, Except.ok.injEq] at h
          subst h
          rcases List.mem_cons.mp hitem with hhd | htl
          · exact Or.inl ⟨t, rfl, hhd⟩
          · rcases ih (some t) l' hrec item htl with ⟨t', ht', hi⟩ | ⟨a', ⟨n', hn'⟩, hi⟩
            · obtain rfl : t = t' := Option.some.inj ht'
              exact Or.inl ⟨t, rfl, hi⟩
            · exact Or.inr ⟨a', ⟨n', List.mem_cons_of_mem _ hn'⟩, hi⟩

theorem cairo_loop_mem (fp : String) :
    ∀ (feed : List (String × PyVal)) (t? : Option Tensor) (l : List SerItem)
      (n : String) (a : Nat), cairo_feed_loop fp t? feed = .ok l →
      (n, PyVal.ndarray a) ∈ feed →
      serializer (create_tensor_from_array a fp) ∈ l := by
  intro feed
  induction feed with
  | nil => intro t? l n a h hmem; simp at hmem
  | cons e rest ih =>
    intro t? l n a h hmem
    obtain ⟨name, v⟩ := e
    cases v with
    | ndarray a' =>
      simp only [cairo_feed_loop] at h
      cases hrec : cairo_feed_loop fp (some (create_tensor_from_array a' fp)) rest with
      | error err => rw [hrec] at h; simp [Except.map] at h
      | ok l' =>
        rw [hrec] at h
        simp only [Except.map, Except.ok.injEq] at h
        subst h
        rcases List.mem_cons.mp hmem with hhd | htl
        · obtain ⟨-, hv⟩ := Prod.mk.inj hhd
          obtain rfl : a = a' := by
            cases hv; rfl
          exact List.mem_cons_self _ _
        · exact List.mem_cons_of_mem _ (ih _ l' n a hrec htl)
    | other o =>
      cases t? with
      | none =>
        simp only [cairo_feed_loop] at h
        exact Except.noConfusion h
      | some t =>
        simp only [cairo_feed_loop] at h
        cases hrec : cairo_feed_loop fp (some t) rest with
        | error err => rw [hrec] at h; simp [Except.map] at h
        | ok l' =>
          rw [hrec] at h
          simp only [Except.map, Except.ok.injEq] at h
          subst h
          rcases List.mem_cons.mp hmem with hhd | htl
          · exact absurd (Prod.mk.inj hhd).2 (by simp)
          · exact List.mem_cons_of_mem _ (ih _ l' n a hrec htl)

theorem cairo_loop_all_ndarray (fp : String) :
    ∀ (feed : List (String × PyVal)), (∀ e ∈ feed, ∃ a, (e : String × PyVal).2 = .ndarray a) →
      ∀ t?, ∃ l, cairo_feed_loop fp t? feed = .ok l := by
  intro feed
  induction feed with
  | nil => intro _ t?; cases t? <;> exact ⟨[], rfl⟩
  | cons e rest ih =>
    intro hall t?
    obtain ⟨name, v⟩ := e
    obtain ⟨a, ha⟩ := hall (name, v) (List.mem_cons_self _ _)
    simp only at ha
    subst ha
    obtain ⟨l, hl⟩ :=
      ih (fun e he => hall e (List.mem_cons_of_mem _ he)) (some (create_tensor_from_array a fp))
    exact ⟨serializer (create_tensor_from_array a fp) :: l, by
      simp only [cairo_feed_loop, hl, Except.map]⟩

/-- Claim C5: `_format_inputs_for_framework` dispatches on the framework enum — `CAIRO`
yields the Cairo-formatted payload, `EZKL` the EZKL-formatted payload, and any other
framework value raises `ValueError`. -/
theorem format_inputs_framework_dispatch (input_file : Option String)
    (cairo_feed : Option (List (String × PyVal))) (ezkl_feed : Option EzklFeed)
    (fp_impl job_size : String) :
    (format_inputs_for_framework .CAIRO
        ((format_inputs_for_cairo input_file cairo_feed fp_impl job_size).map
          FrameworkPayload.cairo)
        ((format_inputs_for_ezkl input_file ezkl_feed job_size).map FrameworkPayload.ezkl) =
      (format_inputs_for_cairo input_file cairo_feed fp_impl job_size).map
        FrameworkPayload.cairo)
    ∧ (format_inputs_for_framework .EZKL
        ((format_inputs_for_cairo input_file cairo_feed fp_impl job_size).map
          FrameworkPayload.cairo)
        ((format_inputs_for_ezkl input_file ezkl_feed job_size).map FrameworkPayload.ezkl) =
      (format_inputs_for_ezkl input_file ezkl_feed job_size).map FrameworkPayload.ezkl)
    ∧ ∀ c e : Except PyError FrameworkPayload,
        format_inputs_for_framework .OTHER c e = .error .valueError :=
  ⟨rfl, rfl, fun _ _ => rfl⟩

/-- Claim C7: in the Cairo path every serialized item carries the `fp_impl` argument —
an `input_file` contributes `serialize(input_file, fp_impl)` and every ndarray entry of
`input_feed` contributes the tensor built from it with `fp_impl` — while the EZKL path
produces a result independent of `fp_impl` (its formatter takes no such parameter). -/
theorem cairo_fp_impl_usage (input_file : Option String) (feed : List (String × PyVal))
    (ezkl_feed : Option EzklFeed) (fp_impl job_size : String) :
    (∀ p, format_inputs_for_cairo input_file (some feed) fp_impl job_size = .ok p →
        ∀ item ∈ p.args,
          (∃ f, input_file = some f ∧ item = SerItem.fromFile f fp_impl) ∨
          ∃ a, item = serializer (create_tensor_from_array a fp_impl))
    ∧ (∀ (n : String) (a : Nat), (n, PyVal.ndarray a) ∈ feed →
        ∀ p, format_inputs_for_cairo input_file (some feed) fp_impl job_size = .ok p →
          serializer (create_tensor_from_array a fp_impl) ∈ p.args)
    ∧ (∀ fp2 : String,
        format_inputs_for_framework .EZKL
          ((format_inputs_for_cairo input_file (some feed) fp_impl job_size).map
            FrameworkPayload.cairo)
          ((format_inputs_for_ezkl input_file ezkl_feed job_size).map
            FrameworkPayload.ezkl) =
        format_inputs_for_framework .EZKL
          ((format_inputs_for_cairo input_file (some feed) fp2 job_size).map
            FrameworkPayload.cairo)
          ((format_inputs_for_ezkl input_file ezkl_feed job_size).map
            FrameworkPayload.ezkl)) := by
  refine ⟨?_, ?_, fun _ => rfl⟩
  · intro p hok item hitem
    cases input_file with
    | none =>
      cases hl : cairo_feed_loop fp_impl none feed with
      | error e =>
        simp [format_inputs_for_cairo, hl, Except.map] at hok
      | ok l =>
        simp only [format_inputs_for_cairo, hl, Except.map, Except.ok.injEq] at hok
        subst hok
        simp only [List.nil_append] at hitem
        rcases cairo_loop_items fp_impl feed none l hl item hitem with ⟨t, ht, -⟩ | ⟨a, -, hi⟩
        · exact Option.noConfusion ht
        · exact Or.inr ⟨a, hi⟩
    | some f =>
      cases hl : cairo_feed_loop fp_impl none feed with
      | error e =>
        simp [format_inputs_for_cairo, hl, Except.map] at hok
      | ok l =>
        simp only [format_inputs_for_cairo, hl, Except.map, Except.ok.injEq] at hok
        subst hok
        rcases List.mem_append.mp hitem with hleft | hright
        · rcases List.mem_singleton.mp hleft with rfl
          exact Or.inl ⟨f, rfl, rfl⟩
        · rcases cairo_loop_items fp_impl feed none l hl item hright with
            ⟨t, ht, -⟩ | ⟨a, -, hi⟩
          · exact Option.noConfusion ht
          · exact Or.inr ⟨a, hi⟩
  · intro n a hmem p hok
    cases input_file with
    | none =>
      cases hl : cairo_feed_loop fp_impl none feed with
      | error e =>
        simp [format_inputs_for_cairo, hl, Except.map] at hok
      | ok l =>
        simp only [format_inputs_for_cairo, hl, Except.map, Except.ok.injEq] at hok
        subst hok
        simpa using cairo_loop_mem fp_impl feed none l n a hl hmem
    | some f =>
      cases hl : cairo_feed_loop fp_impl none feed with
      | error e =>
        simp [format_inputs_for_cairo, hl, Except.map] at hok
      | ok l =>
        simp only [format_inputs_for_cairo, hl, Except.map, Except.ok.injEq] at hok
        subst hok
        exact List.mem_append_right _ (cairo_loop_mem fp_impl feed none l n a hl hmem)

theorem cairo_fp_impl_usage_witness :
    serializer (create_tensor_from_array 3 "FP16x16") ∈
      (CairoPayload.mk "M" [SerItem.fromFile "input.csv" "FP16x16",
        SerItem.fromTensor (Tensor.mk 3 "FP16x16")]).args :=
  (cairo_fp_impl_usage (some "input.csv") [("x", PyVal.ndarray 3)] none "FP16x16" "M").2.1
    "x" 3 (List.mem_singleton.mpr rfl) _ rfl

/-- Claim C8: the dangling `tensor` variable of `_format_inputs_for_cairo` — a feed whose
values are all ndarrays always succeeds; a feed whose first value is not an ndarray (so
no ndarray has been seen when the `else` branch runs) raises the unbound-local
`NameError`; and a non-ndarray value is never itself serialized: every tensor item of a
successful payload comes from an ndarray entry of the feed. -/
theorem cairo_tensor_binding (input_file : Option String) (fp js : String) :
    (∀ feed : List (String × PyVal),
        (∀ e ∈ feed, ∃ a, (e : String × PyVal).2 = .ndarray a) →
        ∃ p, format_inputs_for_cairo input_file (some feed) fp js = .ok p)
    ∧ (∀ (n : String) (o : Nat) (rest : List (String × PyVal)),
        format_inputs_for_cairo input_file (some ((n, .other o) :: rest)) fp js =
          .error .nameError)
    ∧ (∀ feed p, format_inputs_for_cairo input_file (some feed) fp js = .ok p →
        ∀ item ∈ p.args,
          (∃ f, input_file = some f ∧ item = SerItem.fromFile f fp) ∨
          ∃ a, item = serializer (create_tensor_from_array a fp) ∧
            ∃ n, (n, PyVal.ndarray a) ∈ feed) := by
  refine ⟨?_, fun n o rest => rfl, ?_⟩
  · intro feed hall
    obtain ⟨l, hl⟩ := cairo_loop_all_ndarray fp feed hall none
    refine ⟨⟨js, (match input_file with | some f => serialize f fp | none => []) ++ l⟩, ?_⟩
    simp only [format_inputs_for_cairo, hl, Except.map]
  · intro feed p hok item hitem
    cases input_file with
    | none =>
      cases hl : cairo_feed_loop fp none feed with
      | error e =>
        simp [format_inputs_for_cairo, hl, Except.map] at hok
      | ok l =>
        simp only [format_inputs_for_cairo, hl, Except.map, Except.ok.injEq] at hok
        subst hok
        simp only [List.nil_append] at hitem
        rcases cairo_loop_items fp feed none l hl item hitem with
          ⟨t, ht, -⟩ | ⟨a, ⟨n, hn⟩, hi⟩
        · exact Option.noConfusion ht
        · exact Or.inr ⟨a, hi, n, hn⟩
    | some f =>
      cases hl : cairo_feed_loop fp none feed with
      | error e =>
        simp [format_inputs_for_cairo, hl, Except.map] at hok
      | ok l =>
        simp only [format_inputs_for_cairo, hl, Except.map, Except.ok.injEq] at hok
        subst hok
        rcases List.mem_append.mp hitem with hleft | hright
        · rcases List.mem_singleton.mp hleft with rfl
          exact Or.inl ⟨f, rfl, rfl⟩
        · rcases cairo_loop_items fp feed none l hl item hright with
            ⟨t, ht, -⟩ | ⟨a, ⟨n, hn⟩, hi⟩
          · exact Option.noConfusion ht
          · exact Or.inr ⟨a, hi, n, hn⟩

theorem cairo_tensor_binding_witness :
    ∃ p, format_inputs_for_cairo (some "input.csv")
      (some [("x", PyVal.ndarray 3), ("y", PyVal.ndarray 5)]) "FP16x16" "M" = .ok p :=
  (cairo_tensor_binding (some "input.csv") "FP16x16" "M").1
    [("x", PyVal.ndarray 3), ("y", PyVal.ndarray 5)]
    (by
      intro e he
      rcases List.mem_cons.mp he with rfl | he2
      · exact ⟨3, rfl⟩
      · rcases List.mem_singleton.mp he2 with rfl
        exact ⟨5, rfl⟩)

/-- The chain as seen through ape: `chain.blocks[-1].number`. -/
structure ChainState where
  latest_block : Nat
  deriving DecidableEq

/-- The contract-method call issued by `FundCalculator.get_assets_value`: which of the
four calculator methods, with which arguments and `block_identifier`. -/
inductive CalcCall
  | calcNav (vault_proxy : String) (block_identifier : Nat)
  | calcGav (vault_proxy : String) (block_identifier : Nat)
  | calcNavInAsset (vault_proxy quote_asset : String) (block_identifier : Nat)
  | calcGavInAsset (vault_proxy quote_asset : String) (block_identifier : Nat)
  deriving DecidableEq

/-- `FundCalculator.get_assets_value` (fund_calculator.py lines 14–27), also reached
through `Enzyme.get_vault_assets_value` (enzyme.py lines 20–21): defaults
`block_number` to the latest chain block, then selects the contract method from
`quote_asset` and `net`. -/
def get_assets_value (ch : ChainState) (vault_proxy : String) (quote_asset : Option String)
    (net : Bool) (block_number : Option Nat) : CalcCall :=
  let block_number := match block_number with
    | none => ch.latest_block
    | some b => b
  match quote_asset with
  | none =>
    if net then .calcNav vault_proxy block_number
    else .calcGav vault_proxy block_number
  | some q =>
    if net then .calcNavInAsset vault_proxy q block_number
    else .calcGavInAsset vault_proxy q block_number

/-- Claim C6: `get_assets_value` selects exactly `calcNav` for `net=True` without a quote
asset, `calcGav` for `net=False` without one, `calcNavInAsset`/`calcGavInAsset` with
one, and defaults a missing `block_number` to the latest chain block. -/
theorem get_assets_value_dispatch (ch : ChainState) (vp q : String) (b : Nat) :
    get_assets_value ch vp none true (some b) = .calcNav vp b
    ∧ get_assets_value ch vp none false (some b) = .calcGav vp b
    ∧ get_assets_value ch vp (some q) true (some b) = .calcNavInAsset vp q b
    ∧ get_assets_value ch vp (some q) false (some b) = .calcGavInAsset vp q b
    ∧ ∀ (qa : Option String) (net : Bool),
        get_assets_value ch vp qa net none =
          get_assets_value ch vp qa net (some ch.latest_block) := by
  refine ⟨rfl, rfl, rfl, rfl, ?_⟩
  intro qa net
  cases qa <;> cases net <;> rfl

/-- The result of an ape event query, opaque: `vaults_created['event_arguments'].values`. -/
structure EventsResult where
  events : List Nat
  deriving DecidableEq

/-- One `contract.NewFundCreated.query(...)` call issued by `get_vaults_list`, recording
its `start_block`, `stop_block` and whether `engine_to_use="subsquid"` was passed. -/
structure QueryCall where
  start_block : Nat
  stop_block : Nat
  subsquid : Bool
  deriving DecidableEq

/-- The chain and query services seen by `FundDeployer.get_vaults_list`.
`parse_last_int` models the `re.findall(r'\d+', e)[-1]` recovery step of the first
`except` branch; in the source its argument is the exception object itself (not
`str(e)`), so in CPython this step always raises and yields `none` — it is kept
abstract so the theorems hold under either reading. -/
structure DeployerEnv where
  latest_block : Nat
  query_subsquid : Nat → Nat → Except String EventsResult
  query_default : Nat → Nat → Except String EventsResult
  parse_last_int : String → Option Nat

/-- `FundDeployer.get_vaults_list` (fund_deployer.py lines 18–32), also reached through
`Enzyme.get_vaults_list` (enzyme.py lines 17–18): line 19 overwrites the `start_block`
parameter with `0`; a zero `end_block` defaults to the latest chain block; the subsquid
query is retried with a parsed end block, then without an engine.  Returns the query
result (an uncaught error of the final query propagates) and the trace of query calls. -/
def get_vaults_list (env : DeployerEnv) (start_block end_block : Nat) :
    Except String EventsResult × List QueryCall :=
  let start_block := 0
  let end_block := if end_block = 0 then env.latest_block else end_block
  match env.query_subsquid start_block end_block with
  | .ok r => (.ok r, [⟨start_block, end_block, true⟩])
  | .error e =>
    match env.parse_last_int e with
    | some n =>
      match env.query_subsquid start_block n with
      | .ok r =>
        (.ok r, [⟨start_block, end_block, true⟩, ⟨start_block, n, true⟩])
      | .error _ =>
        (env.query_default start_block n,
          [⟨start_block, end_block, true⟩, ⟨start_block, n, true⟩, ⟨start_block, n, false⟩])
    | none =>
      (env.query_default start_block end_block,
        [⟨start_block, end_block, true⟩, ⟨start_block, end_block, false⟩])

/-- Claim C9: `get_vaults_list` ignores its `start_block` parameter — it unconditionally
overwrites it with `0` — so two calls differing only in `start_block` return the same
result (and even the same query trace), and every query it issues starts at block 0. -/
theorem get_vaults_list_ignores_start_block (env : DeployerEnv) (s1 s2 e : Nat) :
    get_vaults_list env s1 e = get_vaults_list env s2 e
    ∧ get_vaults_list env s1 e = get_vaults_list env 0 e
    ∧ ∀ q ∈ (get_vaults_list env s1 e).2, q.start_block = 0 := by
  refine ⟨rfl, rfl, ?_⟩
  intro q hq
  simp only [get_vaults_list] at hq
  split at hq
  · simp only [List.mem_singleton] at hq
    subst hq; rfl
  · split at hq
    · split at hq
      all_goals
        simp only [List.mem_cons, List.mem_singleton, List.not_mem_nil, or_false] at hq
        rcases hq with rfl | hq
        · rfl
        · first
            | rfl
            | (rcases hq with rfl | rfl <;> rfl)
    · simp only [List.mem_cons, List.mem_singleton, List.not_mem_nil, or_false] at hq
      rcases hq with rfl | rfl <;> rfl

theorem get_vaults_list_ignores_start_block_witness :
    get_vaults_list
        ⟨100, fun s e => .ok ⟨[s, e]⟩, fun s e => .ok ⟨[s, e]⟩, fun _ => none⟩ 7 0 =
      get_vaults_list
        ⟨100, fun s e => .ok ⟨[s, e]⟩, fun s e => .ok ⟨[s, e]⟩, fun _ => none⟩ 55 0 :=
  (get_vaults_list_ignores_start_block
    ⟨100, fun s e => .ok ⟨[s, e]⟩, fun s e => .ok ⟨[s, e]⟩, fun _ => none⟩ 7 55 0).1

/-- The on-chain state read by `Vault.deposit`: the denomination asset's decimals and the
sender's current allowance for the vault proxy
(`denomination_asset.allowance(_owner=sender, _spender=vault_proxy)`). -/
structure VaultState where
  denomination_asset_decimals : Nat
  allowance : Int
  deriving DecidableEq

/-- A contract call issued by `Vault.deposit`: `approve(vault_proxy, scaled_amount)` on
the denomination asset, or `buyShares(scaled_amount)` on the vault proxy
(`.call`-simulated when `simulate` is set). -/
inductive VaultCall
  | approve (amount : Int)
  | buyShares (amount : Int) (simulated : Bool)
  deriving DecidableEq

/-- Python `int()` applied to an exact value: truncation toward zero. -/
def pyInt (q : ℚ) : Int := q.num.tdiv q.den

/-- `Vault.deposit` (vault.py lines 30–37), floats modelled as exact rationals:
`scaled_amount = int((amount * 10**denomination_asset_decimals) * (1 - slippage))`;
`approve` is called when `scaled_amount < allowance`; `buyShares(scaled_amount)` is
called in every case.  Returns the scaled amount and the ordered call trace. -/
def deposit (st : VaultState) (amount slippage : ℚ) (simulate : Bool) :
    Int × List VaultCall :=
  let scaled_amount :=
    pyInt ((amount * 10 ^ st.denomination_asset_decimals) * (1 - slippage))
  let approve_calls :=
    if scaled_amount < st.allowance then [VaultCall.approve scaled_amount] else []
  (scaled_amount, approve_calls ++ [VaultCall.buyShares scaled_amount simulate])

/-- Claim C10: `Vault.deposit` computes
`scaled_amount = int((amount * 10**denomination_asset_decimals) * (1 - slippage))`,
calls `approve` exactly when `scaled_amount` is strictly below the current allowance
(so approval is skipped exactly when the allowance is at most the amount to be spent),
and its final call is always `buyShares(scaled_amount)`. -/
theorem vault_deposit_approval (st : VaultState) (amount slippage : ℚ) (simulate : Bool) :
    (deposit st amount slippage simulate).1 =
      pyInt ((amount * 10 ^ st.denomination_asset_decimals) * (1 - slippage))
    ∧ (VaultCall.approve (deposit st amount slippage simulate).1 ∈
        (deposit st amount slippage simulate).2 ↔
        (deposit st amount slippage simulate).1 < st.allowance)
    ∧ (deposit st amount slippage simulate).2.getLast? =
        some (.buyShares (deposit st amount slippage simulate).1 simulate) := by
  by_cases h : pyInt ((amount * 10 ^ st.denomination_asset_decimals) * (1 - slippage)) <
      st.allowance
  · exact ⟨rfl, by simp [deposit, h], by simp [deposit, h, List.getLast?]⟩
  · exact ⟨rfl, by simp [deposit, h], by simp [deposit, h, List.getLast?]⟩
